import Mathlib

/-!
Verification of the calcium-imaging signal-analysis pipeline
(`Data` class, variants `langerhans/data.py` and `src/data.py`, plus
`src/controller.py`) against its natural-language specification.

Numeric arrays are embedded over `ℚ` (the claims under study are about
control flow, shapes, index arithmetic and exact comparisons, not about
floating-point rounding).  The sentinel value `False` used by the source
for "not computed" fields is embedded as `Option.none`.  Operations that
can raise a Python exception return `Option`/a dedicated outcome type.
-/

namespace CellNet

/-! ### Settings model (`import_settings`, langerhans variant)

The settings mapping is modelled by which keys are present; nested
sub-mappings ("Filter", "Exclude") are `Option` of their own key-presence
records, so that indexing an absent sub-mapping can be modelled as a
Python `KeyError`. -/

/-- Presence of the keys of the "Filter" sub-mapping. -/
structure FilterKeys where
  slow : Bool
  fast : Bool
  plot : Bool
deriving DecidableEq

/-- Presence of the keys of the "Exclude" sub-mapping. -/
structure ExcludeKeys where
  score : Bool
  spikes : Bool
deriving DecidableEq

/-- Presence of the top-level settings keys.  `filter`/`exclude` are `none`
when the whole sub-mapping is absent. -/
structure SettingsKeys where
  sampling : Bool
  stimulation : Bool
  filter : Option FilterKeys
  exclude : Option ExcludeKeys
  distance : Bool
deriving DecidableEq

/-- Outcome of `Data.import_settings`: the settings were stored, a
`ValueError` was raised by an explicit check, or a `KeyError` was raised
by indexing an absent sub-mapping. -/
inductive SettingsOutcome where
  | stored
  | valueError
  | keyError
deriving DecidableEq

/-- Embedding of `Data.import_settings` (langerhans/data.py lines 73-87).
The source combines the `not in` tests of one level with `and`, and
indexes `settings["Filter"]` / `settings["Exclude"]` inside the nested
checks, so an absent sub-mapping raises `KeyError` there. -/
def lang_import_settings (s : SettingsKeys) : SettingsOutcome :=
  if ¬s.sampling ∧ ¬s.stimulation ∧ s.filter = none ∧ s.exclude = none ∧ ¬s.distance then
    .valueError
  else
    match s.filter with
    | none => .keyError
    | some f =>
      if ¬f.slow ∧ ¬f.fast ∧ ¬f.plot then .valueError
      else
        match s.exclude with
        | none => .keyError
        | some e =>
          if ¬e.score ∧ ¬e.spikes then .valueError
          else .stored

/-- Embedding of `Data.import_settings` (src/data.py lines 57-58): the
settings are stored with no validation at all. -/
def src_import_settings (_s : SettingsKeys) : SettingsOutcome :=
  .stored

/-- Settings with every key present except "Sampling [Hz]". -/
def settingsNoSampling : SettingsKeys :=
  { sampling := false
    stimulation := true
    filter := some { slow := true, fast := true, plot := true }
    exclude := some { score := true, spikes := true }
    distance := true }

/-! ### `np.roots`-based threshold selection (`compute_distributions`,
src/data.py lines 179-191)

`np.roots` itself is a numeric eigenvalue computation; the embedding takes
the list of computed roots (pairs of real and imaginary part) as input and
models the selection logic applied to them, which is what the claims are
about.  `min` of an empty Python sequence raises `ValueError`, modelled by
`List.minimum` returning `⊤`. -/

/-- Embedding of src/data.py lines 182-185: keep roots whose imaginary
part is below `1e-5` in absolute value, take their real parts, keep those
strictly between `0` and the last bin edge, and take the minimum
(`⊤` models the `ValueError` raised by `min` of an empty sequence). -/
def p_root_code (roots : List (ℚ × ℚ)) (maxBin : ℚ) : WithTop ℚ :=
  let real_roots := (roots.filter (fun z => |z.2| < 1 / 100000)).map Prod.fst
  let final_roots := real_roots.filter (fun r => 0 < r ∧ r < maxBin)
  final_roots.minimum

/-- Modelled from the spec (claim C4 comparison): the smallest real root
(imaginary part exactly zero) lying strictly inside `(0, max bin edge)`. -/
def p_root_spec (roots : List (ℚ × ℚ)) (maxBin : ℚ) : WithTop ℚ :=
  ((roots.filter (fun z => z.2 = 0)).map Prod.fst).filter
    (fun r => 0 < r ∧ r < maxBin) |>.minimum

/-- Embedding of src/data.py lines 188-191.  The quadratic around `0` is
`q = [sd0/2, fd0, p0]`; `np.polyder(q, 1) = [sd0, fd0]` has the single
root `-fd0/sd0` (the vertex root).  Line 191 keeps that root when
`q_root > 0 or q_root > bins[-1]` and otherwise stores `np.inf`
(modelled as `none`). -/
def q_root_code (sd0 fd0 maxBin : ℚ) : Option ℚ :=
  let r := -fd0 / sd0
  if 0 < r ∨ maxBin < r then some r else none

/-- Modelled from the spec (claim C3 comparison): keep the vertex root
when it is strictly positive and does not exceed the histogram range,
otherwise treat it as infinite. -/
def q_root_spec (sd0 fd0 maxBin : ℚ) : Option ℚ :=
  let r := -fd0 / sd0
  if 0 < r ∧ r ≤ maxBin then some r else none

/-! ### The per-cell loop of `compute_distributions` (src/data.py
lines 161-203, claim C5)

`self.__distributions` is first set to a list of empty dicts, then filled
cell by cell.  An exception thrown for one cell propagates out of the
method, so cells after the failing one are left unfilled.  A cell is
modelled by its root list and last bin edge (the data that decides whether
`min(final_roots)` succeeds). -/

/-- Per-cell input to the distribution loop: the computed roots of the
second derivative and the last histogram bin edge. -/
structure DistCell where
  roots : List (ℚ × ℚ)
  maxBin : ℚ

/-- Embedding of the `for cell in range(self.__cells)` loop of
`compute_distributions`: each cell's `p_root` slot is filled in order;
when `min(final_roots)` raises (`p_root_code` is `⊤`), the exception
propagates — the failing cell and every later cell keep their empty dict
(`none`) and the second component records that the loop was aborted
(`false`). -/
def distLoop : List DistCell → List (Option ℚ) × Bool
  | [] => ([], true)
  | c :: rest =>
    if h : p_root_code c.roots c.maxBin = ⊤ then
      (none :: rest.map (fun _ => none), false)
    else
      let out := distLoop rest
      (some ((p_root_code c.roots c.maxBin).untop h) :: out.1, out.2)

/-- A cell whose second derivative has a usable root at `2` (histogram
range `10`). -/
def goodCell : DistCell := { roots := [((2 : ℚ), (0 : ℚ))], maxBin := 10 }

/-- A cell with no root inside `(0, max bin edge)` (its only root is
negative). -/
def badCell : DistCell := { roots := [((-3 : ℚ), (0 : ℚ))], maxBin := 10 }

/-! ### Filtered-trace state and `compute_distributions` (langerhans
variant, lines 274-297; claim C7)

In the source, `signal = self.__filtered_fast[cell]` is a numpy view and
`signal /= np.max(np.abs(signal))` divides the stored row in place; all
later statistics are computed from that normalized row.  The noise/spikes
split happens at the stimulation start frame. -/

/-- Maximum of the absolute values of a row (`np.max(np.abs(signal))`). -/
def maxAbs (l : List ℚ) : ℚ := (l.map (fun x => |x|)).foldr max 0

/-- A row divided by its maximum absolute value (the in-place effect of
`signal /= np.max(np.abs(signal))` on the stored row). -/
def normalizeRow (l : List ℚ) : List ℚ := l.map (fun x => x / maxAbs l)

/-- Mean of a list (`np.mean`); division by zero on the empty list stands
in for numpy's NaN and is never relied upon. -/
def meanQ (l : List ℚ) : ℚ := l.sum / l.length

/-- Variance of a list; `np.std` is its square root, and since the claims
never compare stored spreads, the variance is the stored representative. -/
def varQ (l : List ℚ) : ℚ := meanQ (l.map (fun x => (x - meanQ l) ^ 2))

/-- Per-cell statistics stored by the langerhans `compute_distributions`
(the `noise_params` / `spikes_params` moments of the normalized trace,
split at the stimulation frame). -/
structure StatRec where
  noise_mean : ℚ
  noise_var : ℚ
  spikes_mean : ℚ
  spikes_var : ℚ
deriving DecidableEq

/-- Statistics of one normalized row: `noise = signal[:stimulation]`,
`spikes = signal[stimulation:]`. -/
def statsOf (signal : List ℚ) (stimulation : ℕ) : StatRec :=
  { noise_mean := meanQ (signal.take stimulation)
    noise_var := varQ (signal.take stimulation)
    spikes_mean := meanQ (signal.drop stimulation)
    spikes_var := varQ (signal.drop stimulation) }

/-- State fragment read and written by `compute_distributions`. -/
structure FiltState where
  filtered_slow : List (List ℚ)
  filtered_fast : List (List ℚ)
  stimulation : ℕ
deriving DecidableEq

/-- Embedding of the langerhans `compute_distributions` (lines 274-297) as
a state transformer: for each cell the fast row is normalized in place
(`signal` aliases the stored row) and the statistics of the normalized row
are recorded; slow rows are never written. -/
def lang_compute_distributions (s : FiltState) :
    FiltState × List StatRec :=
  ({ s with filtered_fast := s.filtered_fast.map normalizeRow },
   s.filtered_fast.map (fun row => statsOf (normalizeRow row) s.stimulation))

/-! ### `binarize_fast` (claim C6)

The langerhans variant (lines 392-404) thresholds at `3 × noise_std` and
demotes the cell's quality flag when the spike count is below
`spikes_threshold × points`; the src/data.py variant (lines 272-279)
thresholds at `p_root` and contains no write to `self.__good_cells`. -/

/-- One row binarized against a threshold:
`np.where(filtered_fast[cell] > threshold, 1, 0)`. -/
def binarizeRow (trace : List ℚ) (threshold : ℚ) : List ℤ :=
  trace.map (fun x => if threshold < x then 1 else 0)

/-- Input state of the langerhans `binarize_fast`: the fast traces, the
per-cell stored `noise_params[2]` (the noise standard deviation), the
quality flags, the "Spikes threshold" setting, and `self.__points`. -/
structure FastBinState where
  filtered_fast : List (List ℚ)
  noise_std : List ℚ
  good_cells : List Bool
  spikes_th : ℚ
  points : ℕ
deriving DecidableEq

/-- Embedding of the langerhans `binarize_fast` (lines 392-404): per cell,
the binarized row is the strict indicator against `3 * noise_std`, and the
flag is set to `false` when `np.sum(binarized) < spikes_th * points`
(otherwise it is left unchanged). -/
def lang_binarize_fast (s : FastBinState) : List (List ℤ) × List Bool :=
  ((s.filtered_fast.zip s.noise_std).map
      (fun c => binarizeRow c.1 (3 * c.2)),
   ((s.filtered_fast.zip s.noise_std).zip s.good_cells).map
      (fun c =>
        if ((binarizeRow c.1.1 (3 * c.1.2)).sum : ℚ) < s.spikes_th * s.points
        then false else c.2))

/-- Embedding of the src/data.py `binarize_fast` (lines 272-279): per cell
the strict indicator against the stored `p_root`; the method contains no
statement writing `self.__good_cells`, so the flags pass through
unchanged. -/
def src_binarize_fast (filtered_fast : List (List ℚ)) (p_root : List ℚ)
    (good_cells : List Bool) : List (List ℤ) × List Bool :=
  ((filtered_fast.zip p_root).map (fun c => binarizeRow c.1 c.2),
   good_cells)

/-! ### The full `Data` state and `reset_computations` (claim C8) -/

/-- Concrete settings values (only identity matters for frame claims). -/
structure SettingsV where
  sampling : ℚ
  stimulation : ℚ × ℚ
  slow : ℚ × ℚ
  fast : ℚ × ℚ
  plot : ℚ × ℚ
  distribution_order : ℕ
  score_threshold : ℚ
  spikes_threshold : ℚ
  distance : ℚ
deriving DecidableEq

/-- The fields of the langerhans `Data` object.  The source initializes
every derived field to the sentinel `False` ("not computed"), embedded
here as `none`. -/
structure DataState where
  signal : Option (List (List ℚ))
  mean_islet : Option (List ℚ)
  time : Option (List ℚ)
  settings : Option SettingsV
  points : ℕ
  cells : ℕ
  filtered_slow : Option (List (List ℚ))
  filtered_fast : Option (List (List ℚ))
  distributions : Option (List StatRec)
  binarized_slow : Option (List (List ℤ))
  binarized_fast : Option (List (List ℤ))
  activity : Option (List (ℚ × ℚ))
  good_cells : List Bool
deriving DecidableEq

/-- Embedding of `Data.reset_computations` (langerhans lines 96-103):
every derived artifact is set back to the sentinel and the flags become
`np.ones(self.__cells, dtype="bool")`. -/
def reset_computations (s : DataState) : DataState :=
  { s with
    filtered_slow := none
    filtered_fast := none
    distributions := none
    binarized_slow := none
    binarized_fast := none
    activity := none
    good_cells := List.replicate s.cells true }

/-- Embedding of `Data.import_settings` as used by the controller (a plain
store of the new settings; validation is claim C1's concern). -/
def store_settings (s : DataState) (new : SettingsV) : DataState :=
  { s with settings := some new }

/-- The controller's numeric stage code for "import"
(src/controller.py line 18: `# 1 = import`). -/
def stageImported : ℕ := 1

/-- Controller state: the data object plus `self.current_stage`. -/
structure ControllerState where
  data : DataState
  current_stage : ℕ

/-- Embedding of `Controller.apply_parameters_click` (src/controller.py
lines 176-181): store the new settings, reset the computations, and set
`current_stage = 1`. -/
def apply_parameters_click (c : ControllerState) (new : SettingsV) :
    ControllerState :=
  { data := reset_computations (store_settings c.data new)
    current_stage := 1 }

/-! ### `import_data` (src/data.py lines 36-48; claim C10)

numpy arrays are embedded as a shape plus an entry function; `[:, 1:]`
followed by `.transpose()` is the index remapping
`(i, j) ↦ (j, i + 1)`. -/

/-- A 2-D numpy array: shape and entries. -/
structure NpMat where
  rows : ℕ
  cols : ℕ
  entry : ℕ → ℕ → ℚ

/-- Embedding of `series[:, 1:].transpose()`. -/
def dropColTranspose (m : NpMat) : NpMat :=
  { rows := m.cols - 1, cols := m.rows, entry := fun i j => m.entry j (i + 1) }

/-- The state established by a successful `import_data`. -/
structure ImportState where
  signal : NpMat
  time : List ℚ
  points : ℕ
  cells : ℕ
  good_cells : List Bool

/-- Embedding of `Data.import_data` (src/data.py lines 36-48).  The time
base reads `len(self.__signal[0])`, which raises `IndexError` when the
signal has no rows; `__check_arguments` then rejects positions that are
not `(cells, 2)`-shaped.  `none` models the raised exception (the input is
not accepted). -/
def src_import_data (series positions : NpMat) (sampling : ℚ) :
    Option ImportState :=
  let signal := dropColTranspose series
  if signal.rows = 0 then none
  else if positions.cols ≠ 2 then none
  else if positions.rows ≠ signal.rows then none
  else
    let time := (List.range signal.cols).map (fun k : ℕ => (k : ℚ) * (1 / sampling))
    some { signal := signal
           time := time
           points := time.length
           cells := signal.rows
           good_cells := List.replicate signal.rows true }

/-! ### `binarize_slow` (langerhans lines 406-431; claims C2 and C9)

The row is processed as: heaviside of `np.gradient`, minima / maxima via
`__search_sequence` for the patterns `[0, 1]` / `[1, 0]`, the sorted merge
of both as the extrema, then floored-`linspace` phase labels between
consecutive extrema.  Indexing `minima[0]` or `maxima[0]` on an empty
match array raises `IndexError`, modelled by `none`. -/

/-- Embedding of `np.gradient` (second-order central differences, one-sided
at the edges).  numpy rejects traces of fewer than 2 samples; callers
guard the length. -/
def npGradient (x : List ℚ) : List ℚ :=
  (List.range x.length).map (fun i =>
    if i = 0 then x.getD 1 0 - x.getD 0 0
    else if i = x.length - 1 then
      x.getD (x.length - 1) 0 - x.getD (x.length - 2) 0
    else (x.getD (i + 1) 0 - x.getD (i - 1) 0) / 2)

/-- Embedding of `np.heaviside(np.gradient(signal), 0)` as a boolean row:
`true` exactly where the gradient is strictly positive. -/
def hgOf (trace : List ℚ) : List Bool :=
  (npGradient trace).map (fun g => decide (0 < g))

/-- Embedding of `Data.__search_sequence(arr, [a, b])` (lines 373-390): the
increasing list of start indices where the length-2 pattern matches. -/
def searchSeq (arr : List Bool) (a b : Bool) : List ℕ :=
  (List.range (arr.length - 1)).filter
    (fun i => arr.getD i false = a ∧ arr.getD (i + 1) false = b)

/-- The minima of a slow trace: matches of `[0, 1]` in the heavisided
gradient. -/
def minimaOf (trace : List ℚ) : List ℕ := searchSeq (hgOf trace) false true

/-- The maxima of a slow trace: matches of `[1, 0]` in the heavisided
gradient. -/
def maximaOf (trace : List ℚ) : List ℕ := searchSeq (hgOf trace) true false

/-- Embedding of `np.sort(np.concatenate((minima, maxima)))`. -/
def extremesOf (trace : List ℚ) : List ℕ :=
  List.insertionSort (· ≤ ·) (minimaOf trace ++ maximaOf trace)

/-- All indices where the heavisided gradient changes value — the merged
extrema list in its closed form (proved equal to `extremesOf`). -/
def changePoints (hg : List Bool) : List ℕ :=
  (List.range (hg.length - 1)).filter
    (fun i => ¬ (hg.getD i false = hg.getD (i + 1) false))

/-- One slice assignment
`row[e1:e2] = np.floor(np.linspace(base, base + 6, e2 - e1, endpoint=False))`:
positions inside `[e1, e2)` get the floored interpolant, others keep their
previous value. -/
def writeInterval (arr : ℕ → ℤ) (e1 e2 : ℕ) (base : ℤ) : ℕ → ℤ :=
  fun j =>
    if e1 ≤ j ∧ j < e2 then
      ⌊(base : ℚ) + 6 * ((j : ℚ) - (e1 : ℚ)) / ((e2 : ℚ) - (e1 : ℚ))⌋
    else arr j

/-- The slice assignment `row[lo:hi] = 0`. -/
def writeZeros (arr : ℕ → ℤ) (lo hi : ℕ) : ℕ → ℤ :=
  fun j => if lo ≤ j ∧ j < hi then 0 else arr j

/-- The loop body data: for interval index `i` the pair of consecutive
extrema and the `linspace` base — `1` when
`i % 2 == int(reverse_mode)` (rising half written with `linspace(1, 7)`),
`7` otherwise (`linspace(7, 13)`). -/
def intervalsOf (E : List ℕ) (rev : Bool) : List (ℕ × ℕ × ℤ) :=
  (List.range (E.length - 1)).map
    (fun i => (E.getD i 0, E.getD (i + 1) 0,
      if i % 2 = (if rev then 1 else 0) then (1 : ℤ) else 7))

/-- The `for i in range(len(extremes)-1)` loop as a fold of slice
assignments. -/
def applyWrites (ts : List (ℕ × ℕ × ℤ)) (arr : ℕ → ℤ) : ℕ → ℤ :=
  ts.foldl (fun a t => writeInterval a t.1 t.2.1 t.2.2) arr

/-- The fully assigned row of `binarize_slow`: a zero row, the prefix
erase `row[0:extremes[0]] = 0`, the interval loop, then the suffix erase
`row[extremes[-1]:] = 0`. -/
def slowRowFun (E : List ℕ) (rev : Bool) : ℕ → ℤ :=
  fun j =>
    if E.getD (E.length - 1) 0 ≤ j then 0
    else applyWrites (intervalsOf E rev)
      (writeZeros (fun _ => 0) 0 (E.getD 0 0)) j

/-- Embedding of one cell of `Data.binarize_slow` (langerhans
lines 406-431).  `none` models a raised exception: `np.gradient` rejects
rows shorter than 2 samples, and `minima[0]` / `maxima[0]` raise
`IndexError` when either match list is empty (the source reads both on
line 417 before any guard). -/
def binarize_slow_row (trace : List ℚ) : Option (List ℤ) :=
  if trace.length < 2 then none
  else
    match minimaOf trace, maximaOf trace with
    | m0 :: _, M0 :: _ =>
      let rev := !(decide (m0 < M0))
      some ((List.range trace.length).map (slowRowFun (extremesOf trace) rev))
    | _, _ => none

/-- The rising predicate of claim C9: interval `i` starts at an extreme
where the heavisided gradient is `0` (a local minimum), so the trace rises
on the half-cycle that follows it. -/
def risingAt (trace : List ℚ) (i : ℕ) : Prop :=
  (hgOf trace).getD ((extremesOf trace).getD i 0) false = false

instance (trace : List ℚ) (i : ℕ) : Decidable (risingAt trace i) := by
  unfold risingAt; infer_instance

/-- The phase value a slice assignment writes at position `j`. -/
def intervalValue (t : ℕ × ℕ × ℤ) (j : ℕ) : ℤ :=
  ⌊(t.2.2 : ℚ) + 6 * ((j : ℚ) - (t.1 : ℚ)) / ((t.2.1 : ℚ) - (t.1 : ℚ))⌋

/-- Position `j` lies inside the half-open slice of `t`. -/
def inSlice (t : ℕ × ℕ × ℤ) (j : ℕ) : Prop := t.1 ≤ j ∧ j < t.2.1

instance (t : ℕ × ℕ × ℤ) (j : ℕ) : Decidable (inSlice t j) := by
  unfold inSlice; infer_instance

/-! ### The src/data.py `compute_distributions` frame behavior (claim C7)

Unlike the langerhans variant, the src/data.py loop body (lines 166-203)
reads `np.clip(self.__filtered_fast[cell], 0, None)` — `np.clip` allocates
a fresh array, so no statement aliases the stored rows — and every
assignment targets `self.__distributions[cell]`.  The numeric kernel
between the clip and the root selection (`np.histogram`, the weighted
`np.polyfit`, `np.roots` of the second derivative) is the parameter
`fit`, mapping the clipped row to the computed root list and the last
histogram bin edge; the stored `p_root` slot then follows lines 182-185
(`p_root_code`, with `⊤` for the `ValueError` a rootless cell raises). -/

/-- Embedding of `np.clip(signal, 0, None)` (a fresh array, not a view). -/
def clipPos (l : List ℚ) : List ℚ := l.map (fun x => max x 0)

/-- Embedding of the src/data.py `compute_distributions` as a state
transformer: the filtered arrays pass through unchanged and only the
per-cell distribution records are produced. -/
def src_compute_distributions (fit : List ℚ → List (ℚ × ℚ) × ℚ)
    (s : FiltState) : FiltState × List (WithTop ℚ) :=
  ({ filtered_slow := s.filtered_slow
     filtered_fast := s.filtered_fast
     stimulation := s.stimulation },
   s.filtered_fast.map (fun row =>
     p_root_code (fit (clipPos row)).1 (fit (clipPos row)).2))

/-! ### The src/data.py `binarize_slow` (claim C9)

src/data.py lines 281-308 differ from the langerhans variant: the row is
first overwritten with the heavisided gradient, the extrema are the
indices `i ≥ 1` with `row[i] != row[i-1]`, each consecutive-extrema
interval is filled by six constant blocks `phi + (1 if up else 7)` with
block bounds `counter + int(np.floor(interval/6*phi))`, and — crucially —
the initial `up` flag is read from `self.__binarized_slow[0, cell]`:
row 0 (which for `cell ≥ 1` already holds cell 0's finished phase labels)
at column `cell`, not the current cell's own direction. -/

/-- The slice assignment `row[lo:hi] = v`. -/
def writeConst (arr : ℕ → ℤ) (lo hi : ℕ) (v : ℤ) : ℕ → ℤ :=
  fun j => if lo ≤ j ∧ j < hi then v else arr j

/-- Embedding of the `for e in extremes` loop of src/data.py
lines 295-303: each interval is filled by the six `phi` blocks (block
bounds by rational floor, here natural division), `up` toggling via
`(up+1)%2` after each extreme. -/
def srcIntervalLoop : List ℕ → (ℕ → ℤ) → ℤ → ℕ → (ℕ → ℤ)
  | [], arr, _, _ => arr
  | e :: rest, arr, up, counter =>
    let interval := e - counter
    let add : ℤ := if up ≠ 0 then 1 else 7
    let arr2 := (List.range 6).foldl
      (fun a phi => writeConst a (counter + interval * phi / 6)
        (counter + interval * (phi + 1) / 6) ((phi : ℤ) + add)) arr
    srcIntervalLoop rest arr2 ((up + 1) % 2) e

/-- Relabelling of one row of src/data.py `binarize_slow`, given the
heavisided gradient of the cell's trace and the `up` value read from
`binarized_slow[0, cell]`.  `none` models a raised exception:
`np.gradient` rejects rows shorter than 2 samples and `extremes[0]`
(line 306) raises `IndexError` on an empty extrema list. -/
def srcRelabelRow (hg : List Bool) (upStart : ℤ) : Option (List ℤ) :=
  if hg.length < 2 then none
  else
    let row : ℕ → ℤ := fun i => if hg.getD i false then 1 else 0
    let extremes := (List.range' 1 (hg.length - 1)).filter
      (fun i => ¬ (hg.getD i false = hg.getD (i - 1) false))
    match extremes with
    | [] => none
    | e0 :: _ =>
      let afterLoop := srcIntervalLoop extremes row upStart 0
      let afterPrefix := writeConst afterLoop 0 e0 0
      some ((List.range hg.length).map (fun j =>
        if extremes.getD (extremes.length - 1) 0 ≤ j then 0
        else afterPrefix j))

/-- Embedding of the `for cell in range(self.__cells)` loop of
src/data.py `binarize_slow`: row `cell` is first set to the heavisided
gradient of its trace, then `up` is read from the current matrix at
`[0, cell]` (raising `IndexError` when row 0 is shorter than the cell
index), and the row is relabelled in place. -/
def srcSlowLoop : List (List ℚ) → List (List ℤ) → ℕ → Option (List (List ℤ))
  | [], mat, _ => some mat
  | t :: rest, mat, cell =>
    let hg := hgOf t
    let hgrow := (List.range t.length).map
      (fun i => if hg.getD i false then (1 : ℤ) else 0)
    let mat1 := mat.set cell hgrow
    if cell < (mat1.getD 0 []).length then
      match srcRelabelRow hg ((mat1.getD 0 []).getD cell 0) with
      | none => none
      | some row => srcSlowLoop rest (mat1.set cell row) (cell + 1)
    else none

/-- Embedding of src/data.py `binarize_slow` (lines 281-308) over the
whole matrix of slow-filtered traces, starting from the
`np.zeros((cells, points))` matrix. -/
def src_binarize_slow (traces : List (List ℚ)) : Option (List (List ℤ)) :=
  srcSlowLoop traces (traces.map (fun t => List.replicate t.length 0)) 0

/-! ### Concrete inputs used to instantiate the claims -/

/-- Roots input for claim C4: a genuine real root at `4` and a complex
root `3 + 10⁻⁶·i` whose imaginary part is below the source's `1e-5`
tolerance. -/
def rootsC4 : List (ℚ × ℚ) := [(4, 0), (3, 1 / 1000000)]

/-- A small filtered state used as concrete input for claims C6 and C7. -/
def filtEx : FiltState :=
  { filtered_slow := [[5]], filtered_fast := [[2, 4]], stimulation := 1 }

/-- A concrete analysed state used to instantiate claim C8. -/
def dataEx : DataState :=
  { signal := some [[1, 2], [3, 4]]
    mean_islet := some [2, 3]
    time := some [0, 1]
    settings := none
    points := 2
    cells := 2
    filtered_slow := some [[1, 1], [2, 2]]
    filtered_fast := some [[0, 1], [1, 0]]
    distributions := some []
    binarized_slow := some [[0, 0], [1, 1]]
    binarized_fast := some [[1, 0], [0, 1]]
    activity := some [(0, 1), (0, 1)]
    good_cells := [false, true] }

/-- A 2-row, 3-column raw series (one time column and two cells). -/
def seriesEx : NpMat :=
  { rows := 2, cols := 3, entry := fun i j => (10 * i + j : ℚ) }

/-- Positions for the two cells of `seriesEx`. -/
def positionsEx : NpMat :=
  { rows := 2, cols := 2, entry := fun _ _ => 0 }

/-- The state `import_data` builds from `seriesEx` and `positionsEx`. -/
def importedEx : ImportState :=
  { signal := dropColTranspose seriesEx
    time := (List.range (dropColTranspose seriesEx).cols).map
      (fun k : ℕ => (k : ℚ) * (1 / 1))
    points := ((List.range (dropColTranspose seriesEx).cols).map
      (fun k : ℕ => (k : ℚ) * (1 / 1))).length
    cells := (dropColTranspose seriesEx).rows
    good_cells := List.replicate (dropColTranspose seriesEx).rows true }

/-! ## Theorems -/

/-- C1: the claim says `import_settings` fails whenever at least one
required key is absent.  The langerhans source joins its `not in` checks
with `and`, so a settings mapping missing only "Sampling [Hz]" passes all
checks and is stored; the src/data.py variant stores any mapping
unconditionally.  This evaluates both variants at that failing input. -/
theorem C1_missing_sampling_is_stored :
    lang_import_settings settingsNoSampling = SettingsOutcome.stored ∧
    settingsNoSampling.sampling = false ∧
    src_import_settings settingsNoSampling = SettingsOutcome.stored := by
  refine ⟨?_, rfl, rfl⟩
  rfl

/-- C3: the claim (with the spec) says a vertex root exceeding the
histogram range is treated as infinite.  Line 191 keeps the root whenever
`q_root > 0 or q_root > bins[-1]`, so the vertex root `10` of the
quadratic with `second_derivative(0) = 2`, `first_derivative(0) = -10` is
stored even though the histogram range ends at `5`; the spec's reading
would store infinity (`none`). -/
theorem C3_root_beyond_range_is_kept :
    q_root_code 1 (-10) 5 = some 10 ∧ q_root_spec 1 (-10) 5 = none := by
  constructor <;> norm_num [q_root_code, q_root_spec]

/-- C4 counterexample: the claim says `p_root` is the smallest real root
strictly inside `(0, max bin edge)` and that no root with nonzero
imaginary part is ever selected.  On `rootsC4` with range `5` the only
real root inside the interval is `4`, yet the code selects `3` — the real
part of a root with imaginary part `10⁻⁶ ≠ 0` that passes the `1e-5`
tolerance. -/
theorem C4_near_real_root_selected :
    p_root_code rootsC4 5 = ((3 : ℚ) : WithTop ℚ) ∧
    p_root_spec rootsC4 5 = ((4 : ℚ) : WithTop ℚ) ∧
    ((1 : ℚ) / 1000000) ≠ 0 := by
  refine ⟨?_, ?_, by norm_num⟩ <;>
  · simp only [p_root_code, p_root_spec, rootsC4, List.filter, List.map,
      List.minimum_cons, List.minimum_singleton, decide_eq_true_eq]
    norm_num [abs_lt, List.minimum_cons, List.minimum_singleton,
      ← WithTop.coe_min, min_def]
    try exact_mod_cast (by norm_num : (3 : ℚ) < 4)

/-- C4 amended: `p_root` is the least real part among the computed roots
whose imaginary part is below `1e-5` in absolute value and whose real
part lies strictly inside `(0, max bin edge)`; roots outside that
tolerance or interval never contribute (and the result is the Python
`min`-of-empty error exactly when no such root exists). -/
theorem C4_p_root_least_tolerated_root (roots : List (ℚ × ℚ)) (maxBin v : ℚ) :
    p_root_code roots maxBin = (v : WithTop ℚ) ↔
      (∃ z ∈ roots, |z.2| < 1 / 100000 ∧ z.1 = v ∧ 0 < v ∧ v < maxBin) ∧
      ∀ z ∈ roots, |z.2| < 1 / 100000 → 0 < z.1 → z.1 < maxBin → v ≤ z.1 := by
  unfold p_root_code
  rw [List.minimum_eq_coe_iff]
  simp only [List.mem_filter, List.mem_map, decide_eq_true_eq]
  constructor
  · rintro ⟨⟨⟨z, ⟨hz, hzi⟩, hzv⟩, hv0, hvm⟩, hmin⟩
    refine ⟨⟨z, hz, hzi, hzv, hzv ▸ hv0, hzv ▸ hvm⟩, ?_⟩
    intro w hw hwi hw0 hwm
    exact hmin w.1 ⟨⟨w, ⟨hw, hwi⟩, rfl⟩, hw0, hwm⟩
  · rintro ⟨⟨z, hz, hzi, hzv, hv0, hvm⟩, hmin⟩
    refine ⟨⟨⟨z, ⟨hz, hzi⟩, hzv⟩, hv0, hvm⟩, ?_⟩
    rintro a ⟨⟨w, ⟨hw, hwi⟩, rfl⟩, ha0, ham⟩
    exact hmin w hw hwi ha0 ham

/-- C4 witness: on `rootsC4` with range `5` the characterization is
satisfied by `3`. -/
theorem C4_p_root_least_tolerated_root_witness :
    (∃ z ∈ rootsC4, |z.2| < 1 / 100000 ∧ z.1 = 3 ∧ (0 : ℚ) < 3 ∧ (3 : ℚ) < 5) ∧
    ∀ z ∈ rootsC4, |z.2| < 1 / 100000 → 0 < z.1 → z.1 < 5 → (3 : ℚ) ≤ z.1 :=
  (C4_p_root_least_tolerated_root rootsC4 5 3).mp (by
    simp only [p_root_code, rootsC4, List.filter, List.map,
      List.minimum_cons, List.minimum_singleton, decide_eq_true_eq]
    norm_num [abs_lt, List.minimum_cons, List.minimum_singleton,
      ← WithTop.coe_min, min_def]
    try exact_mod_cast (by norm_num : (3 : ℚ) < 4))

/-- C5: the claim says a cell with no valid inflection root is marked bad
and the loop continues for the remaining cells.  In the source,
`min(final_roots)` raises `ValueError` for such a cell and the exception
propagates out of `compute_distributions`: the failing cell and every
later cell are left without distributions, no flag is touched, and the
loop is aborted (second component `false`). -/
theorem C5_empty_root_set_aborts_loop :
    distLoop [goodCell, badCell, goodCell] =
      ([some 2, none, none], false) := by
  have hg : p_root_code goodCell.roots goodCell.maxBin = ((2 : ℚ) : WithTop ℚ) := by
    simp only [goodCell, p_root_code, List.filter, List.map, decide_eq_true_eq]
    norm_num [List.minimum_singleton]
  have hb : p_root_code badCell.roots badCell.maxBin = ⊤ := by
    simp only [badCell, p_root_code, List.filter, List.map, decide_eq_true_eq]
    norm_num [List.minimum_nil]
  simp only [distLoop, hg, hb]
  norm_num [WithTop.untop]

/-- C6 counterexample: the claim says `binarize_fast` sets the quality
flag to bad whenever the fraction of 1s falls below the minimum spike
fraction.  The src/data.py (advanced, `p_root`-threshold) variant contains
no write to the flags: a cell with zero spikes (fraction `0 < 1/100`)
keeps its good flag. -/
theorem C6_advanced_variant_keeps_flag :
    (src_binarize_fast [[0, 0]] [1] [true]).2 = [true] ∧
    ((src_binarize_fast [[0, 0]] [1] [true]).1.getD 0 []).sum = 0 ∧
    ((((src_binarize_fast [[0, 0]] [1] [true]).1.getD 0 []).sum : ℚ) / 2
      < 1 / 100) := by
  refine ⟨rfl, ?_, ?_⟩ <;> norm_num [src_binarize_fast, binarizeRow]

/-- C6 amended: both variants produce the exact strict indicator of
"fast-band sample > threshold" (threshold `3 × noise_std` in the simple
langerhans variant, `p_root` in the advanced src/data.py variant); the
simple variant additionally demotes the flag exactly when the spike count
is below `spikes_threshold × points`, while the advanced variant's
`binarize_fast` leaves the quality flags unchanged. -/
theorem C6_fast_binarizer (s : FastBinState) (cell j : ℕ)
    (hc : cell < s.filtered_fast.length)
    (hcs : cell < s.noise_std.length)
    (hcg : cell < s.good_cells.length)
    (hj : j < (s.filtered_fast.getD cell []).length) :
    (((lang_binarize_fast s).1.getD cell []).getD j 0 =
      if 3 * s.noise_std.getD cell 0 < (s.filtered_fast.getD cell []).getD j 0
      then 1 else 0) ∧
    ((lang_binarize_fast s).2.getD cell false =
      if ((binarizeRow (s.filtered_fast.getD cell [])
            (3 * s.noise_std.getD cell 0)).sum : ℚ) < s.spikes_th * s.points
      then false else s.good_cells.getD cell false) ∧
    (∀ (ff : List (List ℚ)) (pr : List ℚ) (g : List Bool),
      (src_binarize_fast ff pr g).2 = g) ∧
    (∀ (ff : List (List ℚ)) (pr : List ℚ) (g : List Bool) (c k : ℕ),
      c < ff.length → c < pr.length → k < (ff.getD c []).length →
      ((src_binarize_fast ff pr g).1.getD c []).getD k 0 =
        if pr.getD c 0 < (ff.getD c []).getD k 0 then 1 else 0) := by
  have hzip : cell < (s.filtered_fast.zip s.noise_std).length := by
    simp [List.length_zip]; omega
  have e1 : s.filtered_fast.getD cell [] = s.filtered_fast[cell] :=
    List.getD_eq_getElem _ _ hc
  have e2 : s.noise_std.getD cell 0 = s.noise_std[cell] :=
    List.getD_eq_getElem _ _ hcs
  have hj2 : j < (s.filtered_fast[cell]).length := e1 ▸ hj
  refine ⟨?_, ?_, fun ff pr g => rfl, ?_⟩
  · have h1 : cell < ((s.filtered_fast.zip s.noise_std).map
        (fun c => binarizeRow c.1 (3 * c.2))).length := by simpa using hzip
    rw [e1, e2, List.getD_eq_getElem _ _ hj2,
      lang_binarize_fast, List.getD_eq_getElem _ _ h1]
    simp only [List.getElem_map, List.getElem_zip, binarizeRow]
    rw [List.getD_eq_getElem _ _ (by simpa using hj2)]
    simp [List.getElem_map]
  · have h2 : cell < (((s.filtered_fast.zip s.noise_std).zip s.good_cells).map
        (fun c => if ((binarizeRow c.1.1 (3 * c.1.2)).sum : ℚ)
            < s.spikes_th * s.points then false else c.2)).length := by
      simp [List.length_zip]; omega
    rw [e1, e2, List.getD_eq_getElem _ _ hcg,
      lang_binarize_fast, List.getD_eq_getElem _ _ h2]
    simp only [List.getElem_map, List.getElem_zip]
  · intro ff pr g c k hcf hcp hk
    have f1 : ff.getD c [] = ff[c] := List.getD_eq_getElem _ _ hcf
    have f2 : pr.getD c 0 = pr[c] := List.getD_eq_getElem _ _ hcp
    have hk2 : k < (ff[c]).length := f1 ▸ hk
    have h3 : c < ((ff.zip pr).map (fun x => binarizeRow x.1 x.2)).length := by
      simp [List.length_zip]; omega
    rw [f1, f2, List.getD_eq_getElem _ _ hk2,
      src_binarize_fast, List.getD_eq_getElem _ _ h3]
    simp only [List.getElem_map, List.getElem_zip, binarizeRow]
    rw [List.getD_eq_getElem _ _ (by simpa using hk2)]
    simp [List.getElem_map]

/-- C6 witness: the amended statement evaluated on a one-cell state whose
only spike is the sample `4 > 3·1`. -/
theorem C6_fast_binarizer_witness :
    ((lang_binarize_fast
        { filtered_fast := [[2, 4]], noise_std := [1], good_cells := [true],
          spikes_th := 1 / 100, points := 2 }).1.getD 0 []).getD 1 0 =
      (if 3 * (1 : ℚ) < 4 then 1 else 0) := by
  have h := (C6_fast_binarizer
    { filtered_fast := [[2, 4]], noise_std := [1], good_cells := [true],
      spikes_th := 1 / 100, points := 2 } 0 1
    (by norm_num) (by norm_num) (by norm_num) (by norm_num)).1
  simpa using h

/-- C7 counterexample: the claim says the filtered traces hold the same
values after `compute_distributions` as before.  In the langerhans source
`signal` aliases the stored fast row and `signal /= np.max(np.abs(signal))`
rescales it in place: the row `[2, 4]` becomes `[1/2, 1]`. -/
theorem C7_fast_rows_mutated :
    (lang_compute_distributions filtEx).1.filtered_fast = [[1 / 2, 1]] ∧
    filtEx.filtered_fast = [[2, 4]] ∧
    (lang_compute_distributions filtEx).1.filtered_fast ≠
      filtEx.filtered_fast := by
  have h1 : (lang_compute_distributions filtEx).1.filtered_fast =
      [[1 / 2, 1]] := by
    simp only [lang_compute_distributions, filtEx, normalizeRow, maxAbs,
      List.map, List.foldr]
    norm_num [abs_of_nonneg, max_def]
  refine ⟨h1, rfl, ?_⟩
  rw [h1]
  intro hcon
  simp only [filtEx, List.cons.injEq] at hcon
  norm_num at hcon

/-- C7 amended: `compute_distributions` never writes the slow-band traces
nor the remaining state; the langerhans variant replaces every fast-band
trace, in place, by the trace divided by its maximum absolute value,
while the src/data.py variant (working on an `np.clip` copy, for every
numeric kernel `fit`) changes neither filtered array; only the
distributions artifact is produced besides the langerhans rescaling. -/
theorem C7_slow_preserved_fast_rescaled (s : FiltState) :
    (lang_compute_distributions s).1.filtered_slow = s.filtered_slow ∧
    (lang_compute_distributions s).1.stimulation = s.stimulation ∧
    (lang_compute_distributions s).1.filtered_fast.length =
      s.filtered_fast.length ∧
    (∀ i j, i < s.filtered_fast.length →
      j < (s.filtered_fast.getD i []).length →
      ((lang_compute_distributions s).1.filtered_fast.getD i []).getD j 0 =
        (s.filtered_fast.getD i []).getD j 0 /
          maxAbs (s.filtered_fast.getD i [])) ∧
    ∀ fit : List ℚ → List (ℚ × ℚ) × ℚ,
      (src_compute_distributions fit s).1.filtered_slow =
        s.filtered_slow ∧
      (src_compute_distributions fit s).1.filtered_fast =
        s.filtered_fast ∧
      (src_compute_distributions fit s).1.stimulation = s.stimulation := by
  refine ⟨rfl, rfl, by simp [lang_compute_distributions], ?_,
    fun fit => ⟨rfl, rfl, rfl⟩⟩
  intro i j hi hj
  have e1 : s.filtered_fast.getD i [] = s.filtered_fast[i] :=
    List.getD_eq_getElem _ _ hi
  have hj2 : j < (s.filtered_fast[i]).length := e1 ▸ hj
  have hi2 : i < (s.filtered_fast.map normalizeRow).length := by simpa using hi
  rw [e1, List.getD_eq_getElem _ _ hj2,
    show (lang_compute_distributions s).1.filtered_fast =
      s.filtered_fast.map normalizeRow from rfl,
    List.getD_eq_getElem _ _ hi2]
  simp only [List.getElem_map, normalizeRow]
  rw [List.getD_eq_getElem _ _ (by simpa using hj2)]
  simp [List.getElem_map]

/-- C7 witness: the amended statement evaluated on `filtEx` at cell 0,
sample 0, and the src clause at a concrete numeric kernel. -/
theorem C7_slow_preserved_fast_rescaled_witness :
    (((lang_compute_distributions filtEx).1.filtered_fast.getD 0 []).getD 0 0 =
      (filtEx.filtered_fast.getD 0 []).getD 0 0 /
        maxAbs (filtEx.filtered_fast.getD 0 [])) ∧
    (src_compute_distributions (fun _ => ([], 0)) filtEx).1.filtered_fast =
      filtEx.filtered_fast :=
  ⟨(C7_slow_preserved_fast_rescaled filtEx).2.2.2.1 0 0
      (by norm_num [filtEx]) (by norm_num [filtEx]),
    ((C7_slow_preserved_fast_rescaled filtEx).2.2.2.2
      (fun _ => ([], 0))).2.1⟩

/-- C8: `reset_computations` restores every quality flag to good and
clears every derived artifact (filtered traces, distributions, binarized
matrices, activity windows) to the not-computed sentinel, while leaving
the raw signal, islet mean, time base, settings, point count and cell
count unchanged; `apply_parameters_click` then puts the controller stage
back at the import stage. -/
theorem C8_reset_restores_imported_state (s : DataState) :
    (reset_computations s).signal = s.signal ∧
    (reset_computations s).mean_islet = s.mean_islet ∧
    (reset_computations s).time = s.time ∧
    (reset_computations s).settings = s.settings ∧
    (reset_computations s).points = s.points ∧
    (reset_computations s).cells = s.cells ∧
    (reset_computations s).filtered_slow = none ∧
    (reset_computations s).filtered_fast = none ∧
    (reset_computations s).distributions = none ∧
    (reset_computations s).binarized_slow = none ∧
    (reset_computations s).binarized_fast = none ∧
    (reset_computations s).activity = none ∧
    (reset_computations s).good_cells.length = s.cells ∧
    (∀ i, i < s.cells →
      (reset_computations s).good_cells.getD i false = true) ∧
    ∀ (c : ControllerState) (new : SettingsV),
      (apply_parameters_click c new).current_stage = stageImported := by
  refine ⟨rfl, rfl, rfl, rfl, rfl, rfl, rfl, rfl, rfl, rfl, rfl, rfl,
    by simp [reset_computations], ?_, fun c new => rfl⟩
  intro i hi
  rw [List.getD_eq_getElem _ _ (by simp [reset_computations]; omega)]
  simp [reset_computations]

/-- C8 witness: the reset statement evaluated on `dataEx` (the excluded
cell 0 is good again and the derived artifacts are cleared). -/
theorem C8_reset_restores_imported_state_witness :
    (reset_computations dataEx).good_cells.getD 0 false = true ∧
    (reset_computations dataEx).filtered_slow = none ∧
    (reset_computations dataEx).signal = dataEx.signal :=
  ⟨(C8_reset_restores_imported_state dataEx).2.2.2.2.2.2.2.2.2.2.2.2.2.1 0
      (by norm_num [dataEx]),
    (C8_reset_restores_imported_state dataEx).2.2.2.2.2.2.1,
    (C8_reset_restores_imported_state dataEx).1⟩

/-- C10: for every input accepted by `import_data`, the first column is
discarded and the rest transposed — the stored signal has the transposed
shape with entries `signal[i][j] = series[j][i+1]`, `get_cells()` is one
less than the input column count, `get_points()` is the input row count,
and every quality flag starts good. -/
theorem C10_import_data_shape (series positions : NpMat) (sampling : ℚ)
    (st : ImportState)
    (h : src_import_data series positions sampling = some st) :
    st.cells = series.cols - 1 ∧
    st.points = series.rows ∧
    st.signal.rows = series.cols - 1 ∧
    st.signal.cols = series.rows ∧
    (∀ i j, st.signal.entry i j = series.entry j (i + 1)) ∧
    st.good_cells.length = series.cols - 1 ∧
    ∀ i, i < st.cells → st.good_cells.getD i false = true := by
  unfold src_import_data at h
  by_cases h1 : (dropColTranspose series).rows = 0
  · simp [h1] at h
  by_cases h2 : positions.cols ≠ 2
  · simp [h1, h2] at h
  by_cases h3 : positions.rows ≠ (dropColTranspose series).rows
  · simp [h1, h2, h3] at h
  simp only [h1, h2, h3, if_false, Option.some.injEq, reduceIte] at h
  subst h
  refine ⟨rfl, by rw [List.length_map, List.length_range]; rfl, rfl, rfl,
    fun i j => rfl, by simp [dropColTranspose], ?_⟩
  intro i hi
  rw [List.getD_eq_getElem _ _ (by simpa using hi)]
  simp

/-- C10 witness: the shape statement evaluated on the concrete 2×3
series. -/
theorem C10_import_data_shape_witness :
    src_import_data seriesEx positionsEx 1 = some importedEx ∧
    importedEx.cells = seriesEx.cols - 1 ∧
    importedEx.points = seriesEx.rows ∧
    importedEx.signal.entry 0 1 = seriesEx.entry 1 1 ∧
    importedEx.good_cells.getD 0 false = true := by
  have h : src_import_data seriesEx positionsEx 1 = some importedEx := rfl
  have hall := C10_import_data_shape seriesEx positionsEx 1 importedEx h
  exact ⟨h, hall.1, hall.2.1, hall.2.2.2.2.1 0 1,
    hall.2.2.2.2.2.2 0 (by rw [hall.1]; norm_num [seriesEx])⟩

/-! ### Structure of the extrema list (for claim C9) -/

/-- The change-point list is strictly increasing. -/
theorem changePoints_pairwise (hg : List Bool) :
    (changePoints hg).Pairwise (· < ·) :=
  (List.pairwise_lt_range _).filter _

/-- Membership characterization of `changePoints`. -/
theorem mem_changePoints {hg : List Bool} {x : ℕ} :
    x ∈ changePoints hg ↔
      x < hg.length - 1 ∧ hg.getD x false ≠ hg.getD (x + 1) false := by
  simp [changePoints, List.mem_filter, List.mem_range]

/-- The minima search is the restriction of the change points to positions
where the heavisided gradient is `0`. -/
theorem searchSeq_false_true (hg : List Bool) :
    searchSeq hg false true =
      (changePoints hg).filter (fun i => hg.getD i false = false) := by
  rw [changePoints, List.filter_filter, searchSeq]
  refine List.filter_congr ?_
  intro a _
  cases h1 : hg.getD a false <;> cases h2 : hg.getD (a + 1) false <;> simp [h1, h2]

/-- The maxima search is the restriction of the change points to positions
where the heavisided gradient is `1`. -/
theorem searchSeq_true_false (hg : List Bool) :
    searchSeq hg true false =
      (changePoints hg).filter (fun i => hg.getD i false = true) := by
  rw [changePoints, List.filter_filter, searchSeq]
  refine List.filter_congr ?_
  intro a _
  cases h1 : hg.getD a false <;> cases h2 : hg.getD (a + 1) false <;> simp [h1, h2]

/-- The sorted merge of the minima and maxima lists is exactly the
change-point list. -/
theorem extremesOf_eq_changePoints (trace : List ℚ) :
    extremesOf trace = changePoints (hgOf trace) := by
  have hperm : List.Perm (minimaOf trace ++ maximaOf trace)
      (changePoints (hgOf trace)) := by
    rw [minimaOf, maximaOf, searchSeq_false_true, searchSeq_true_false]
    have hco : (changePoints (hgOf trace)).filter
        (fun i => (hgOf trace).getD i false = true) =
        (changePoints (hgOf trace)).filter
          (fun i => !((hgOf trace).getD i false = false)) := by
      refine List.filter_congr ?_
      intro a _
      cases h : (hgOf trace).getD a false <;> simp [h]
    rw [hco]
    exact List.filter_append_perm _ _
  have hsorted : (changePoints (hgOf trace)).Sorted (· ≤ ·) :=
    (changePoints_pairwise _).imp le_of_lt
  refine List.eq_of_perm_of_sorted
    ((List.perm_insertionSort _ _).trans hperm)
    (List.sorted_insertionSort _ _) hsorted

/-- Strict monotonicity of indexed access into the change-point list. -/
theorem changePoints_getD_lt {hg : List Bool} {i k : ℕ} (hik : i < k)
    (hk : k < (changePoints hg).length) :
    (changePoints hg).getD i 0 < (changePoints hg).getD k 0 := by
  have hi : i < (changePoints hg).length := lt_trans hik hk
  rw [List.getD_eq_getElem _ _ hi, List.getD_eq_getElem _ _ hk]
  exact List.pairwise_iff_getElem.mp (changePoints_pairwise hg) i k hi hk hik

/-- Elements of the change-point list are below `hg.length - 1`. -/
theorem changePoints_getD_lt_len {hg : List Bool} {i : ℕ}
    (hi : i < (changePoints hg).length) :
    (changePoints hg).getD i 0 < hg.length - 1 := by
  have hmem : (changePoints hg).getD i 0 ∈ changePoints hg := by
    rw [List.getD_eq_getElem _ _ hi]
    exact List.getElem_mem hi
  exact (mem_changePoints.mp hmem).1

/-- No change point lies strictly between two consecutive change
points. -/
theorem no_changePoint_between {hg : List Bool} {i x : ℕ}
    (hi : i + 1 < (changePoints hg).length)
    (h1 : (changePoints hg).getD i 0 < x)
    (h2 : x < (changePoints hg).getD (i + 1) 0) :
    x ∉ changePoints hg := by
  intro hx
  obtain ⟨k, hk, hkx⟩ := List.mem_iff_getElem.mp hx
  have hget : (changePoints hg).getD k 0 = x := by
    rw [List.getD_eq_getElem _ _ hk]; exact hkx
  rcases lt_or_le k (i + 1) with hki | hki
  · rcases lt_or_eq_of_le (Nat.lt_succ_iff.mp hki) with hlt | heq
    · exact absurd (hget ▸ changePoints_getD_lt hlt (lt_trans (Nat.lt_succ_self i) hi))
        (by omega)
    · exact absurd (heq ▸ hget) (by omega)
  · rcases lt_or_eq_of_le hki with hlt | heq
    · exact absurd (hget ▸ changePoints_getD_lt hlt hk) (by omega)
    · exact absurd (heq ▸ hget) (by omega)

/-- Between two consecutive change points the heavisided gradient is
constant: every sample strictly after the first and up to the second has
the value taken right after the first change point. -/
theorem hg_const_between {hg : List Bool} {i : ℕ}
    (hi : i + 1 < (changePoints hg).length) :
    ∀ k, (changePoints hg).getD i 0 < k →
      k ≤ (changePoints hg).getD (i + 1) 0 →
      hg.getD k false = hg.getD ((changePoints hg).getD i 0 + 1) false := by
  set a := (changePoints hg).getD i 0 with ha
  set b := (changePoints hg).getD (i + 1) 0 with hb
  have hbmem : b ∈ changePoints hg := by
    rw [hb, List.getD_eq_getElem _ _ hi]
    exact List.getElem_mem hi
  have hblen : b < hg.length - 1 := (mem_changePoints.mp hbmem).1
  intro k
  induction k with
  | zero => intro hk; omega
  | succ m ih =>
    intro h1 h2
    rcases Nat.lt_or_ge a m with ham | ham
    · have hm : hg.getD m false = hg.getD (a + 1) false :=
        ih ham (le_of_lt (Nat.lt_of_succ_le h2))
      have hmnot : m ∉ changePoints hg :=
        no_changePoint_between hi ham (Nat.lt_of_succ_le h2)
      have hmc : hg.getD m false = hg.getD (m + 1) false := by
        by_contra hne
        exact hmnot (mem_changePoints.mpr ⟨by omega, hne⟩)
      rw [← hmc, hm]
    · have : m = a := by omega
      rw [this]

/-- Consecutive change points carry opposite gradient signs. -/
theorem hg_alternates {hg : List Bool} {i : ℕ}
    (hi : i + 1 < (changePoints hg).length) :
    hg.getD ((changePoints hg).getD (i + 1) 0) false =
      !(hg.getD ((changePoints hg).getD i 0) false) := by
  have hab : (changePoints hg).getD i 0 < (changePoints hg).getD (i + 1) 0 :=
    changePoints_getD_lt (Nat.lt_succ_self i) hi
  have hamem : (changePoints hg).getD i 0 ∈ changePoints hg := by
    rw [List.getD_eq_getElem _ _ (lt_trans (Nat.lt_succ_self i) hi)]
    exact List.getElem_mem _
  have hane : hg.getD ((changePoints hg).getD i 0) false ≠
      hg.getD ((changePoints hg).getD i 0 + 1) false :=
    (mem_changePoints.mp hamem).2
  have hconst := hg_const_between hi ((changePoints hg).getD (i + 1) 0)
    hab le_rfl
  rw [hconst]
  generalize hu : hg.getD ((changePoints hg).getD i 0) false = u at hane ⊢
  generalize hv : hg.getD ((changePoints hg).getD i 0 + 1) false = v at hane ⊢
  cases u <;> cases v <;> simp_all

/-- Parity of the interval index determines the gradient sign at its
starting change point. -/
theorem hg_parity {hg : List Bool} {i : ℕ}
    (hi : i < (changePoints hg).length) :
    (hg.getD ((changePoints hg).getD i 0) false = false ↔
      (i % 2 = 0 ↔ hg.getD ((changePoints hg).getD 0 0) false = false)) := by
  induction i with
  | zero => simp
  | succ m ih =>
    have hm : m < (changePoints hg).length := lt_trans (Nat.lt_succ_self m) hi
    have halt := @hg_alternates hg m hi
    rw [halt]
    have hpar : (m + 1) % 2 = 0 ↔ ¬(m % 2 = 0) := by omega
    rw [hpar]
    have ihm := ih hm
    generalize hu : hg.getD ((changePoints hg).getD m 0) false = u at ihm ⊢
    generalize hv : hg.getD ((changePoints hg).getD 0 0) false = v at ihm ⊢
    cases u <;> cases v <;> simp_all

/-- Head of a strictly sorted list is a lower bound of its members. -/
theorem head_le_of_pairwise {l : List ℕ} {a x : ℕ} {as : List ℕ}
    (hl : l.Pairwise (· < ·)) (hform : l = a :: as) (hx : x ∈ l) : a ≤ x := by
  subst hform
  rcases List.mem_cons.mp hx with h | h
  · omega
  · exact le_of_lt ((List.pairwise_cons.mp hl).1 x h)

/-- The sign of the heavisided gradient at the first change point decides
which search hit comes first: it is `0` exactly when the first minimum
precedes the first maximum. -/
theorem first_changePoint_type {trace : List ℚ} {m0 M0 : ℕ} {ms Ms : List ℕ}
    (hmin : minimaOf trace = m0 :: ms) (hmax : maximaOf trace = M0 :: Ms) :
    ((hgOf trace).getD ((changePoints (hgOf trace)).getD 0 0) false = false ↔
      m0 < M0) := by
  set hg := hgOf trace with hhg
  set C := changePoints hg with hC
  have hminf : minimaOf trace = C.filter (fun i => hg.getD i false = false) := by
    rw [minimaOf, hhg, searchSeq_false_true]
  have hmaxf : maximaOf trace = C.filter (fun i => hg.getD i false = true) := by
    rw [maximaOf, hhg, searchSeq_true_false]
  have hm0mem : m0 ∈ C ∧ hg.getD m0 false = false := by
    have : m0 ∈ C.filter (fun i => hg.getD i false = false) := by
      rw [← hminf, hmin]; exact List.mem_cons_self m0 ms
    simpa using List.mem_filter.mp this
  have hM0mem : M0 ∈ C ∧ hg.getD M0 false = true := by
    have : M0 ∈ C.filter (fun i => hg.getD i false = true) := by
      rw [← hmaxf, hmax]; exact List.mem_cons_self M0 Ms
    simpa using List.mem_filter.mp this
  have hCpw : C.Pairwise (· < ·) := changePoints_pairwise hg
  obtain ⟨c0, rest, hCform⟩ : ∃ c0 rest, C = c0 :: rest := by
    cases hCeq : C with
    | nil => rw [hCeq] at hm0mem; exact absurd hm0mem.1 (List.not_mem_nil m0)
    | cons c0 rest => exact ⟨c0, rest, rfl⟩
  have hc0 : C.getD 0 0 = c0 := by rw [hCform]; rfl
  have hc0mem : c0 ∈ C := by rw [hCform]; exact List.mem_cons_self c0 rest
  have hc0le : ∀ x ∈ C, c0 ≤ x := fun x hx => head_le_of_pairwise hCpw hCform hx
  have hminpw : (C.filter (fun i => hg.getD i false = false)).Pairwise (· < ·) :=
    hCpw.filter _
  have hmaxpw : (C.filter (fun i => hg.getD i false = true)).Pairwise (· < ·) :=
    hCpw.filter _
  rw [hc0]
  cases hc0v : hg.getD c0 false with
  | false =>
    have hc0min : c0 ∈ C.filter (fun i => hg.getD i false = false) :=
      List.mem_filter.mpr ⟨hc0mem, by rw [decide_eq_true_eq]; exact hc0v⟩
    have hm0le : m0 ≤ c0 :=
      head_le_of_pairwise hminpw (hminf ▸ hmin) hc0min
    have hc0lem0 : c0 ≤ m0 := hc0le m0 hm0mem.1
    have heq : c0 = m0 := le_antisymm hc0lem0 hm0le
    have hne : c0 ≠ M0 := by
      intro hcon
      rw [hcon, hM0mem.2] at hc0v
      exact Bool.noConfusion hc0v
    have hlt : c0 < M0 := lt_of_le_of_ne (hc0le M0 hM0mem.1) hne
    constructor
    · intro _
      omega
    · intro _
      rfl
  | true =>
    have hc0max : c0 ∈ C.filter (fun i => hg.getD i false = true) :=
      List.mem_filter.mpr ⟨hc0mem, by rw [decide_eq_true_eq]; exact hc0v⟩
    have hM0le : M0 ≤ c0 :=
      head_le_of_pairwise hmaxpw (hmaxf ▸ hmax) hc0max
    have hc0leM0 : c0 ≤ M0 := hc0le M0 hM0mem.1
    have heq : c0 = M0 := le_antisymm hc0leM0 hM0le
    have hne : c0 ≠ m0 := by
      intro hcon
      rw [hcon, hm0mem.2] at hc0v
      exact Bool.noConfusion hc0v
    have hlt : c0 < m0 := lt_of_le_of_ne (hc0le m0 hm0mem.1) hne
    constructor
    · intro hcon
      exact Bool.noConfusion hcon
    · intro hcon
      exact absurd hcon (by omega)

/-! ### Lookup lemmas for the slice-assignment fold -/

/-- A fold of slice assignments writes nothing at a position outside every
slice. -/
theorem applyWrites_not_mem (ts : List (ℕ × ℕ × ℤ)) (arr : ℕ → ℤ) (j : ℕ)
    (h : ∀ t ∈ ts, ¬ inSlice t j) : applyWrites ts arr j = arr j := by
  induction ts generalizing arr with
  | nil => rfl
  | cons t ts ih =>
    have hstep : applyWrites (t :: ts) arr =
        applyWrites ts (writeInterval arr t.1 t.2.1 t.2.2) := rfl
    rw [hstep, ih _ (fun u hu => h u (List.mem_cons_of_mem t hu))]
    have hnot : ¬ (t.1 ≤ j ∧ j < t.2.1) := h t (List.mem_cons_self t ts)
    simp [writeInterval, hnot]

/-- A fold of slice assignments evaluates, at a position inside slice `i`
and outside every later slice, to the value written by slice `i`. -/
theorem applyWrites_at (ts : List (ℕ × ℕ × ℤ)) (arr : ℕ → ℤ) (j i : ℕ)
    (hi : i < ts.length) (hmem : inSlice (ts.getD i (0, 0, 0)) j)
    (hlater : ∀ k, i < k → k < ts.length → ¬ inSlice (ts.getD k (0, 0, 0)) j) :
    applyWrites ts arr j = intervalValue (ts.getD i (0, 0, 0)) j := by
  induction ts generalizing arr i with
  | nil => simp at hi
  | cons t ts ih =>
    have hstep : applyWrites (t :: ts) arr =
        applyWrites ts (writeInterval arr t.1 t.2.1 t.2.2) := rfl
    cases i with
    | zero =>
      rw [hstep, applyWrites_not_mem]
      · have hm : t.1 ≤ j ∧ j < t.2.1 := hmem
        simp [writeInterval, hm, intervalValue]
      · intro u hu
        obtain ⟨k, hk, hku⟩ := List.mem_iff_getElem.mp hu
        have := hlater (k + 1) (Nat.succ_pos k) (by simpa using Nat.succ_lt_succ hk)
        rw [List.getD_cons_succ, List.getD_eq_getElem _ _ hk, hku] at this
        exact this
    | succ m =>
      rw [hstep, List.getD_cons_succ]
      refine ih _ m (by simpa using hi) (by simpa using hmem) ?_
      intro k hmk hk
      have := hlater (k + 1) (Nat.succ_lt_succ hmk) (by simpa using Nat.succ_lt_succ hk)
      rw [List.getD_cons_succ] at this
      exact this

/-- Every value a fold of slice assignments can produce is either the
previous value or the written value of one of its slices. -/
theorem applyWrites_cases (ts : List (ℕ × ℕ × ℤ)) (arr : ℕ → ℤ) (j : ℕ) :
    applyWrites ts arr j = arr j ∨
      ∃ t ∈ ts, inSlice t j ∧ applyWrites ts arr j = intervalValue t j := by
  induction ts generalizing arr with
  | nil => exact Or.inl rfl
  | cons t ts ih =>
    have hstep : applyWrites (t :: ts) arr =
        applyWrites ts (writeInterval arr t.1 t.2.1 t.2.2) := rfl
    rcases ih (writeInterval arr t.1 t.2.1 t.2.2) with h | ⟨u, hu, hus, huv⟩
    · by_cases hm : t.1 ≤ j ∧ j < t.2.1
      · refine Or.inr ⟨t, List.mem_cons_self t ts, hm, ?_⟩
        rw [hstep, h]
        simp [writeInterval, hm, intervalValue]
      · refine Or.inl ?_
        rw [hstep, h]
        simp [writeInterval, hm]
    · exact Or.inr ⟨u, List.mem_cons_of_mem t hu, hus, hstep ▸ huv⟩

/-- Bounds for the floored `linspace` value: inside the slice it lies in
`[base, base + 5]`. -/
theorem intervalValue_bounds {t : ℕ × ℕ × ℤ} {j : ℕ} (h : inSlice t j) :
    t.2.2 ≤ intervalValue t j ∧ intervalValue t j ≤ t.2.2 + 5 := by
  obtain ⟨h1, h2⟩ := h
  have he : t.1 < t.2.1 := lt_of_le_of_lt h1 h2
  have hden : (0 : ℚ) < (t.2.1 : ℚ) - (t.1 : ℚ) := by
    have := (Nat.cast_lt (α := ℚ)).mpr he
    linarith
  have hnum0 : (0 : ℚ) ≤ (j : ℚ) - (t.1 : ℚ) := by
    have := (Nat.cast_le (α := ℚ)).mpr h1
    linarith
  have hnumlt : (j : ℚ) - (t.1 : ℚ) < (t.2.1 : ℚ) - (t.1 : ℚ) := by
    have := (Nat.cast_lt (α := ℚ)).mpr h2
    linarith
  have hx0 : (0 : ℚ) ≤ 6 * ((j : ℚ) - (t.1 : ℚ)) / ((t.2.1 : ℚ) - (t.1 : ℚ)) := by
    positivity
  have hx6 : 6 * ((j : ℚ) - (t.1 : ℚ)) / ((t.2.1 : ℚ) - (t.1 : ℚ)) < 6 := by
    rw [div_lt_iff₀ hden]
    nlinarith
  unfold intervalValue
  rw [Int.floor_int_add]
  constructor
  · have : (0 : ℤ) ≤ ⌊6 * ((j : ℚ) - (t.1 : ℚ)) / ((t.2.1 : ℚ) - (t.1 : ℚ))⌋ :=
      Int.floor_nonneg.mpr hx0
    omega
  · have : ⌊6 * ((j : ℚ) - (t.1 : ℚ)) / ((t.2.1 : ℚ) - (t.1 : ℚ))⌋ < 6 :=
      Int.floor_lt.mpr (by exact_mod_cast hx6)
    omega

/-- Length of the interval list produced by the labelling loop. -/
theorem intervalsOf_length (E : List ℕ) (rev : Bool) :
    (intervalsOf E rev).length = E.length - 1 := by
  simp [intervalsOf]

/-- The `i`-th loop interval: consecutive extrema with the parity-chosen
base label. -/
theorem intervalsOf_getD (E : List ℕ) (rev : Bool) (i : ℕ)
    (hi : i < E.length - 1) :
    (intervalsOf E rev).getD i (0, 0, 0) =
      (E.getD i 0, E.getD (i + 1) 0,
        if i % 2 = (if rev then 1 else 0) then (1 : ℤ) else 7) := by
  rw [List.getD_eq_getElem _ _ (by simpa [intervalsOf] using hi)]
  simp [intervalsOf]

/-- Members of the interval list are consecutive-extrema triples. -/
theorem mem_intervalsOf {E : List ℕ} {rev : Bool} {t : ℕ × ℕ × ℤ}
    (ht : t ∈ intervalsOf E rev) :
    ∃ i, i < E.length - 1 ∧
      t = (E.getD i 0, E.getD (i + 1) 0,
        if i % 2 = (if rev then 1 else 0) then (1 : ℤ) else 7) := by
  obtain ⟨i, hi, hit⟩ := List.mem_map.mp ht
  exact ⟨i, List.mem_range.mp hi, hit.symm⟩

/-- The heavisided gradient has one entry per sample. -/
theorem hgOf_length (trace : List ℚ) : (hgOf trace).length = trace.length := by
  simp [hgOf, npGradient]

/-- Unfolding of the rising predicate through the closed form of the
extrema list. -/
theorem risingAt_iff (trace : List ℚ) (i : ℕ) :
    risingAt trace i ↔
      (hgOf trace).getD
        ((changePoints (hgOf trace)).getD i 0) false = false := by
  rw [risingAt, extremesOf_eq_changePoints]

/-- The prefix-erase of a zero row is still zero everywhere. -/
theorem writeZeros_of_zero (lo hi j : ℕ) :
    writeZeros (fun _ => 0) lo hi j = 0 := by
  unfold writeZeros
  split <;> rfl

/-- C2: the claim says that with fewer than 2 detected extrema
`binarize_slow` yields an all-zero row without failing.  The source reads
`minima[0]` and `maxima[0]` before any emptiness guard, so a strictly
monotone trace (no extrema at all: both match lists empty) and a
single-extremum trace (one match list empty) both raise `IndexError`
instead of producing zeros. -/
theorem C2_few_extrema_raise_index_error :
    binarize_slow_row [0, 1, 2, 3] = none ∧
    minimaOf [0, 1, 2, 3] = [] ∧ maximaOf [0, 1, 2, 3] = [] ∧
    binarize_slow_row [0, 1, 0] = none ∧
    minimaOf [0, 1, 0] = [] ∧ maximaOf [0, 1, 0] = [0] := by
  have hg1 : hgOf [0, 1, 2, 3] = [true, true, true, true] := by
    norm_num [hgOf, npGradient, List.range_succ]
  have hg2 : hgOf [0, 1, 0] = [true, false, false] := by
    norm_num [hgOf, npGradient, List.range_succ]
  have hmin1 : minimaOf [0, 1, 2, 3] = [] := by
    norm_num [minimaOf, searchSeq, hg1, List.range_succ]
  have hmax1 : maximaOf [0, 1, 2, 3] = [] := by
    norm_num [maximaOf, searchSeq, hg1, List.range_succ]
  have hmin2 : minimaOf [0, 1, 0] = [] := by
    norm_num [minimaOf, searchSeq, hg2, List.range_succ]
  have hmax2 : maximaOf [0, 1, 0] = [0] := by
    norm_num [maximaOf, searchSeq, hg2, List.range_succ]
  refine ⟨?_, hmin1, hmax1, ?_, hmin2, hmax2⟩ <;>
    simp [binarize_slow_row, hmin1, hmax1, hmin2, hmax2]

/-- C9 counterexample: the claim says that for every cell a falling
half-cycle carries labels in `7..12`.  In src/data.py `binarize_slow`,
line 293 reads the initial `up` flag from `self.__binarized_slow[0, cell]`
— row 0, which for `cell ≥ 1` already holds cell 0's finished phase
labels — instead of the cell's own direction.  With two cells sharing the
trace `[0, 1, 2, 1, 0, 1, 2]` (heavisided gradient
`[1, 1, 0, 0, 0, 1, 1]`: a maximum at 2, a minimum at 5, so `[2, 5)` is a
falling half-cycle), cell 0 is labelled `8, 10, 12` there, but cell 1 —
whose `up` is read as cell 0's label `0` at sample 1 — is labelled
`2, 4, 6`: its falling half-cycle carries labels in `1..6`, label `4` at
sample 3 among them. -/
theorem C9_src_up_flag_misread :
    src_binarize_slow [[0, 1, 2, 1, 0, 1, 2], [0, 1, 2, 1, 0, 1, 2]] =
      some [[0, 0, 8, 10, 12, 0, 0], [0, 0, 2, 4, 6, 0, 0]] ∧
    hgOf [0, 1, 2, 1, 0, 1, 2] =
      [true, true, false, false, false, true, true] ∧
    (([[0, 0, 8, 10, 12, 0, 0], [0, 0, 2, 4, 6, 0, 0]] :
        List (List ℤ)).getD 1 []).getD 3 0 = 4 ∧
    ¬ (7 ≤ (4 : ℤ) ∧ (4 : ℤ) ≤ 12) := by
  have hg7 : hgOf [0, 1, 2, 1, 0, 1, 2] =
      [true, true, false, false, false, true, true] := by
    norm_num [hgOf, npGradient, List.range_succ]
  refine ⟨?_, hg7, by decide, by decide⟩
  rw [src_binarize_slow]
  simp only [srcSlowLoop, hg7]
  decide

/-- C9 amended (the langerhans variant, where the rising/falling claim
holds in full): after a successful `binarize_slow`, every label lies in
the bounded cyclic range `0..12`; samples before the first detected
extreme and at/after the last are labelled `0`; between consecutive
extrema the labels lie in `1..6` on a rising half-cycle (the interval
following an extreme where the heavisided gradient is `0`, a minimum) and
in `7..12` on a falling one, and the rising/falling halves alternate. -/
theorem C9_slow_phase_label_structure (trace : List ℚ) (labels : List ℤ)
    (h : binarize_slow_row trace = some labels) :
    labels.length = trace.length ∧
    (∀ j, j < trace.length → 0 ≤ labels.getD j 0 ∧ labels.getD j 0 ≤ 12) ∧
    (∀ j, j < (extremesOf trace).getD 0 0 → labels.getD j 0 = 0) ∧
    (∀ j, (extremesOf trace).getD ((extremesOf trace).length - 1) 0 ≤ j →
      labels.getD j 0 = 0) ∧
    (∀ i j, i + 1 < (extremesOf trace).length →
      (extremesOf trace).getD i 0 ≤ j →
      j < (extremesOf trace).getD (i + 1) 0 →
      (risingAt trace i → 1 ≤ labels.getD j 0 ∧ labels.getD j 0 ≤ 6) ∧
      (¬ risingAt trace i → 7 ≤ labels.getD j 0 ∧ labels.getD j 0 ≤ 12)) ∧
    (∀ i, i + 1 < (extremesOf trace).length →
      (risingAt trace i ↔ ¬ risingAt trace (i + 1))) := by
  rw [binarize_slow_row] at h
  split at h
  · exact absurd h (by simp)
  split at h
  case _ m0 ms M0 Ms hmin hmax =>
    simp only [Option.some.injEq] at h
    subst h
    have hEC := extremesOf_eq_changePoints trace
    have hnlen := hgOf_length trace
    rw [hEC]
    have hm0 : m0 ∈ changePoints (hgOf trace) ∧
        (hgOf trace).getD m0 false = false := by
      have h1 : minimaOf trace = (changePoints (hgOf trace)).filter
          (fun i => (hgOf trace).getD i false = false) := by
        rw [minimaOf, searchSeq_false_true]
      have h2 : m0 ∈ (changePoints (hgOf trace)).filter
          (fun i => (hgOf trace).getD i false = false) := by
        rw [← h1, hmin]; exact List.mem_cons_self _ _
      simpa using List.mem_filter.mp h2
    have hlen0 : 0 < (changePoints (hgOf trace)).length :=
      List.length_pos.mpr (List.ne_nil_of_mem hm0.1)
    have hCmono : ∀ i k, i ≤ k → k < (changePoints (hgOf trace)).length →
        (changePoints (hgOf trace)).getD i 0 ≤
          (changePoints (hgOf trace)).getD k 0 := by
      intro i k hik hk
      rcases lt_or_eq_of_le hik with hlt | heq
      · exact le_of_lt (changePoints_getD_lt hlt hk)
      · rw [heq]
    have hgetlab : ∀ j, j < trace.length →
        ((List.range trace.length).map
          (slowRowFun (changePoints (hgOf trace)) (!decide (m0 < M0)))).getD
            j 0 =
          slowRowFun (changePoints (hgOf trace)) (!decide (m0 < M0)) j := by
      intro j hj
      rw [List.getD_eq_getElem _ _ (by simpa using hj)]
      simp
    have hlabdef : ∀ j, trace.length ≤ j →
        ((List.range trace.length).map
          (slowRowFun (changePoints (hgOf trace)) (!decide (m0 < M0)))).getD
            j 0 = 0 := by
      intro j hj
      exact List.getD_eq_default _ _ (by simpa using hj)
    have hlast_le : ∀ j,
        (changePoints (hgOf trace)).getD
          ((changePoints (hgOf trace)).length - 1) 0 ≤ j →
        slowRowFun (changePoints (hgOf trace)) (!decide (m0 < M0)) j = 0 := by
      intro j hj
      dsimp only [slowRowFun]
      rw [if_pos hj]
    have hbounds : ∀ j,
        0 ≤ slowRowFun (changePoints (hgOf trace)) (!decide (m0 < M0)) j ∧
        slowRowFun (changePoints (hgOf trace)) (!decide (m0 < M0)) j ≤ 12 := by
      intro j
      dsimp only [slowRowFun]
      split
      · exact ⟨le_refl 0, by norm_num⟩
      · rcases applyWrites_cases
          (intervalsOf (changePoints (hgOf trace)) (!decide (m0 < M0))) _ j
          with hcc | ⟨t, htm, hts, htv⟩
        · rw [hcc, writeZeros_of_zero]
          exact ⟨le_refl 0, by norm_num⟩
        · rw [htv]
          obtain ⟨i, hi, hti⟩ := mem_intervalsOf htm
          have hb := intervalValue_bounds hts
          have hbase : t.2.2 = 1 ∨ t.2.2 = 7 := by
            rw [hti]; dsimp only
            by_cases hc : i % 2 = (if (!decide (m0 < M0)) then 1 else 0)
            · rw [if_pos hc]; exact Or.inl rfl
            · rw [if_neg hc]; exact Or.inr rfl
          rcases hbase with h1 | h1 <;> rw [h1] at hb <;> omega
    have hbefore : ∀ j, j < (changePoints (hgOf trace)).getD 0 0 →
        slowRowFun (changePoints (hgOf trace)) (!decide (m0 < M0)) j = 0 := by
      intro j hj
      dsimp only [slowRowFun]
      have hccc : ¬ ((changePoints (hgOf trace)).getD
          ((changePoints (hgOf trace)).length - 1) 0 ≤ j) := by
        have := hCmono 0 ((changePoints (hgOf trace)).length - 1)
          (Nat.zero_le _) (by omega)
        omega
      rw [if_neg hccc, applyWrites_not_mem]
      · exact writeZeros_of_zero _ _ _
      · intro t ht
        obtain ⟨i, hi, hti⟩ := mem_intervalsOf ht
        intro hins
        have h1 : (changePoints (hgOf trace)).getD i 0 ≤ j := by
          rw [hti] at hins; exact hins.1
        have := hCmono 0 i (Nat.zero_le _) (by omega)
        omega
    have hinterval : ∀ i j, i + 1 < (changePoints (hgOf trace)).length →
        (changePoints (hgOf trace)).getD i 0 ≤ j →
        j < (changePoints (hgOf trace)).getD (i + 1) 0 →
        (if i % 2 = (if (!decide (m0 < M0)) then 1 else 0) then (1 : ℤ) else 7)
            ≤ slowRowFun (changePoints (hgOf trace)) (!decide (m0 < M0)) j ∧
          slowRowFun (changePoints (hgOf trace)) (!decide (m0 < M0)) j ≤
            (if i % 2 = (if (!decide (m0 < M0)) then 1 else 0) then (1 : ℤ)
              else 7) + 5 := by
      intro i j hi h1 h2
      dsimp only [slowRowFun]
      have hlast : ¬ ((changePoints (hgOf trace)).getD
          ((changePoints (hgOf trace)).length - 1) 0 ≤ j) := by
        have := hCmono (i + 1) ((changePoints (hgOf trace)).length - 1)
          (by omega) (by omega)
        omega
      rw [if_neg hlast]
      have hiv : i < (intervalsOf (changePoints (hgOf trace))
          (!decide (m0 < M0))).length := by
        rw [intervalsOf_length]; omega
      rw [applyWrites_at _ _ j i hiv ?_ ?_]
      · rw [intervalsOf_getD _ _ _ (by omega)]
        exact intervalValue_bounds ⟨h1, h2⟩
      · rw [intervalsOf_getD _ _ _ (by omega)]
        exact ⟨h1, h2⟩
      · intro k hik hk
        rw [intervalsOf_length] at hk
        rw [intervalsOf_getD _ _ _ hk]
        intro hins
        have := hCmono (i + 1) k hik (by omega)
        exact absurd hins.1 (by omega)
    have hbase_iff : ∀ i, i + 1 < (changePoints (hgOf trace)).length →
        ((if i % 2 = (if (!decide (m0 < M0)) then 1 else 0) then (1 : ℤ)
            else 7) = 1 ↔
          (hgOf trace).getD ((changePoints (hgOf trace)).getD i 0) false =
            false) := by
      intro i hi
      have hp := @hg_parity (hgOf trace) i
        (lt_trans (Nat.lt_succ_self i) hi)
      have hf := first_changePoint_type hmin hmax
      rw [hp]
      by_cases hmM : m0 < M0
      · have h0f : (hgOf trace).getD
            ((changePoints (hgOf trace)).getD 0 0) false = false :=
          hf.mpr hmM
        rw [h0f]
        have hrv : (!decide (m0 < M0)) = false := by simp [hmM]
        rw [hrv]
        have htf : ((false : Bool) = false) ↔ True := by simp
        rw [htf, iff_true]
        have hif0 : (if (false : Bool) then 1 else 0) = 0 := rfl
        rw [hif0]
        by_cases he : i % 2 = 0
        · rw [if_pos he]
          simp [he]
        · rw [if_neg he]
          norm_num [he]
      · have h0t : (hgOf trace).getD
            ((changePoints (hgOf trace)).getD 0 0) false = true := by
          cases hv : (hgOf trace).getD
              ((changePoints (hgOf trace)).getD 0 0) false with
          | false => exact absurd (hf.mp hv) hmM
          | true => rfl
        rw [h0t]
        have hrv : (!decide (m0 < M0)) = true := by simp [hmM]
        rw [hrv]
        have htf : ((true : Bool) = false) ↔ False := by simp
        rw [htf, iff_false]
        have hif1 : (if (true : Bool) then 1 else 0) = 1 := rfl
        rw [hif1]
        by_cases he : i % 2 = 1
        · rw [if_pos he]
          have hne : ¬ (i % 2 = 0) := by omega
          simp [hne]
        · rw [if_neg he]
          have h0 : i % 2 = 0 := by omega
          norm_num [h0]
    refine ⟨by simp, ?_, ?_, ?_, ?_, ?_⟩
    · intro j hj
      rw [hgetlab j hj]
      exact hbounds j
    · intro j hj
      have hj0 : (changePoints (hgOf trace)).getD 0 0 <
          (hgOf trace).length - 1 := changePoints_getD_lt_len hlen0
      rw [hgetlab j (by omega)]
      exact hbefore j hj
    · intro j hj
      by_cases hjn : j < trace.length
      · rw [hgetlab j hjn]
        exact hlast_le j hj
      · exact hlabdef j (by omega)
    · intro i j hi h1 h2
      have hi1len : (changePoints (hgOf trace)).getD (i + 1) 0 <
          (hgOf trace).length - 1 := changePoints_getD_lt_len hi
      have hjn : j < trace.length := by omega
      rw [hgetlab j hjn]
      have hiv := hinterval i j hi h1 h2
      have hbi := hbase_iff i hi
      have hb17 : (if i % 2 = (if (!decide (m0 < M0)) then 1 else 0)
          then (1 : ℤ) else 7) = 1 ∨
          (if i % 2 = (if (!decide (m0 < M0)) then 1 else 0) then (1 : ℤ)
            else 7) = 7 := by
        by_cases hc : i % 2 = (if (!decide (m0 < M0)) then 1 else 0)
        · rw [if_pos hc]; exact Or.inl rfl
        · rw [if_neg hc]; exact Or.inr rfl
      constructor
      · intro hrise
        rw [risingAt_iff] at hrise
        have hbb := hbi.mpr hrise
        rw [hbb] at hiv
        omega
      · intro hnr
        rw [risingAt_iff] at hnr
        have hbb : (if i % 2 = (if (!decide (m0 < M0)) then 1 else 0)
            then (1 : ℤ) else 7) = 7 := by
          rcases hb17 with hx | hx
          · exact absurd (hbi.mp hx) hnr
          · exact hx
        rw [hbb] at hiv
        omega
    · intro i hi
      rw [risingAt_iff, risingAt_iff]
      have halt := @hg_alternates (hgOf trace) i hi
      rw [halt]
      cases hv : (hgOf trace).getD
          ((changePoints (hgOf trace)).getD i 0) false <;> simp
  case _ => exact absurd h (by simp)

/-- C9 witness: the structure statement evaluated on the trace
`[0, 1, 0, 1]` (a maximum at 0, a minimum at 2): `binarize_slow` labels it
`[7, 10, 0, 0]`, and sample 1 sits in the falling half-cycle with a label
in `7..12`. -/
theorem C9_slow_phase_label_structure_witness :
    binarize_slow_row [0, 1, 0, 1] = some [7, 10, 0, 0] ∧
    ¬ risingAt [0, 1, 0, 1] 0 ∧
    7 ≤ ([7, 10, 0, 0] : List ℤ).getD 1 0 ∧
    ([7, 10, 0, 0] : List ℤ).getD 1 0 ≤ 12 := by
  have hg2 : hgOf [0, 1, 0, 1] = [true, false, false, true] := by
    norm_num [hgOf, npGradient, List.range_succ]
  have hmin : minimaOf [0, 1, 0, 1] = [2] := by
    norm_num [minimaOf, searchSeq, hg2, List.range_succ]
  have hmax : maximaOf [0, 1, 0, 1] = [0] := by
    norm_num [maximaOf, searchSeq, hg2, List.range_succ]
  have hext : extremesOf [0, 1, 0, 1] = [0, 2] := by
    rw [extremesOf, hmin, hmax]
    rfl
  have h : binarize_slow_row [0, 1, 0, 1] = some [7, 10, 0, 0] := by
    rw [binarize_slow_row, if_neg (by norm_num), hmin, hmax]
    simp only [Option.some.injEq]
    rw [hext]
    norm_num [slowRowFun, intervalsOf, applyWrites, writeInterval, writeZeros,
      List.range_succ]
  have hnr : ¬ risingAt [0, 1, 0, 1] 0 := by
    simp only [risingAt, hext, hg2]
    norm_num
  have hmain := C9_slow_phase_label_structure [0, 1, 0, 1] [7, 10, 0, 0] h
  have hint := (hmain.2.2.2.2.1 0 1 (by rw [hext]; norm_num)
    (by rw [hext]; norm_num) (by rw [hext]; norm_num)).2 hnr
  exact ⟨h, hnr, hint.1, hint.2⟩

end CellNet
